import Mathlib

/-!
Verification development for `convert.py`, a batch pipeline that discovers
slide images named `date_label_page.png` in a source directory, converts them
to WebP into an archive directory, moves the originals there as well, and
rebuilds a JSON index of the archive grouped by date and label.

Filenames are modelled as lists of characters.  Python string primitives
(`str.split`, `str.join`, `os.path.splitext`, `str.isdigit`, `int`) are given
faithful executable counterparts.  The filesystem is modelled as explicit
state: each directory is an association list from file name to an abstract
byte payload, and the image codec (Pillow) is a black-box parameter.
-/

/-! ### Definitions: the shallow embedding of `convert.py` -/

/-- A file name (or file stem), as its list of characters. -/
abbrev FName := List Char

/-- The underscore delimiter used by the naming convention. -/
def usc : Char := '_'

/-- The `.png` extension. -/
def extPng : FName := ['.', 'p', 'n', 'g']

/-- The `.webp` extension. -/
def extWebp : FName := ['.', 'w', 'e', 'b', 'p']

/-- Auxiliary loop of Python `str.split` for a one-character separator.
The accumulator holds the characters of the current segment, reversed. -/
def splitAux (c : Char) : List Char → List Char → List FName
  | [], acc => [acc.reverse]
  | x :: xs, acc =>
    if x = c then acc.reverse :: splitAux c xs []
    else splitAux c xs (x :: acc)

/-- Python `s.split(c)` for a single-character separator `c`:
always returns at least one (possibly empty) segment. -/
def pysplit (c : Char) (s : FName) : List FName := splitAux c s []

/-- Python `'_'.join(parts)`. -/
def joinU : List FName → FName
  | [] => []
  | [p] => p
  | p :: q :: rest => p ++ usc :: joinU (q :: rest)

/-- Python `os.path.splitext` for a plain base name (no directory
separators): split at the last dot, unless every character in front of that
dot is itself a dot (leading-dots rule, e.g. `.bashrc` keeps no extension). -/
def splitext (s : FName) : FName × FName :=
  match s.reverse.dropWhile (fun c => c != '.') with
  | [] => (s, [])
  | _ :: tl =>
    if tl.reverse.any (fun c => c != '.') then
      (tl.reverse, '.' :: (s.reverse.takeWhile (fun c => c != '.')).reverse)
    else (s, [])

/-- The decimal digits (Unicode category Nd) — the characters `int()`
accepts.  The development's alphabet keeps the class's ASCII members
`0`–`9`; non-ASCII decimal digits (which `int()` also accepts, with the same
decimal values) are outside every name this development evaluates. -/
def isDecimalDigit (c : Char) : Bool := c.isDigit

/-- Characters with the Unicode digit property that are *not* decimal:
superscript and subscript digits (U+00B9, U+00B2, U+00B3, U+2070,
U+2074–U+2079, U+2080–U+2089).  CPython's `str.isdigit` is `True` on them,
but `int()` raises `ValueError`: `'²'.isdigit()` is `True`, `int('²')`
raises.  (The real class has further members, all behaving alike.) -/
def isDigitNotDecimal (c : Char) : Bool :=
  ['¹', '²', '³', '⁰', '⁴', '⁵', '⁶', '⁷', '⁸', '⁹',
   '₀', '₁', '₂', '₃', '₄', '₅', '₆', '₇', '₈', '₉'].contains c

/-- Python `s.isdigit()`: nonempty and every character decimal or
digit-property.  Strictly wider than what `int()` accepts. -/
def pyIsDigit (s : FName) : Bool :=
  !s.isEmpty && s.all (fun c => isDecimalDigit c || isDigitNotDecimal c)

/-- Nonempty and all decimal digits: exactly the `isdigit`-true strings
`int()` converts without raising. -/
def allDecimal (s : FName) : Bool := !s.isEmpty && s.all isDecimalDigit

/-- The value `int(s)` computes on a string of decimal digits. -/
def charsToNat (s : FName) : Nat := s.foldl (fun a c => 10 * a + (c.toNat - 48)) 0

/-- Python `int(s)` on an `isdigit`-true string (no sign, whitespace or
underscore can occur in one): the value when every character is decimal,
`none` for the `ValueError` raised on a digit-property non-decimal
character. -/
def pyInt (s : FName) : Option Nat :=
  if allDecimal s then some (charsToNat s) else none

/-- The page expression of `parse_filename`,
`int(page) if page.isdigit() else 0`: `0` when the segment is not
`isdigit`, otherwise the `int` conversion — which raises (`none`) exactly
when a digit-property non-decimal character slipped past the guard. -/
def pageVal (pg : FName) : Option Nat :=
  if pyIsDigit pg then pyInt pg else some 0

/-- `parse_filename` from `convert.py`: strip the extension, split the stem on
the underscore; the first segment is the date, the last is the page number,
and the segments in between are rejoined to form the label.  `none` models
an uncaught exception: indexing cannot fail (the split is never empty), but
`int(page)` can raise even under the `isdigit` guard (see `pageVal`). -/
def parse_filename (webp_name : FName) : Option (FName × FName × Nat) :=
  let parts := pysplit usc (splitext webp_name).1
  match parts.head?, parts.getLast? with
  | some date, some page =>
    match pageVal page with
    | some p => some (date, joinU ((parts.drop 1).dropLast), p)
    | none => none
  | _, _ => none

/-- The page number of an archive entry as `build_list_json` sorts by it. -/
def pageOf (w : FName) : Nat :=
  match parse_filename w with
  | some (_, _, p) => p
  | none => 0

/-- Whether a name is a dotfile (hidden from `glob` patterns such as
`*.png`). -/
def hiddenName : FName → Bool
  | [] => false
  | c :: _ => c == '.'

/-- `glob.glob(f'{SOURCE_DIR}/*.png')` over the names in the source
directory: names ending in `.png`, dotfiles excluded, enumeration order
preserved. -/
def globPng (names : List FName) : List FName :=
  names.filter (fun n => extPng.isSuffixOf n && !hiddenName n)

/-- `find_slide_pngs` from `convert.py`: among the globbed `.png` files, keep
those whose extension-stripped name splits into at least three segments. -/
def find_slide_pngs (names : List FName) : List FName :=
  (globPng names).filter (fun n => decide (3 ≤ (pysplit usc (splitext n).1).length))

/-- File contents, as an abstract byte payload. -/
abbrev Bytes := Nat

/-- The black-box image codec (Pillow): decoding may fail on a malformed
file; conversion to RGB and WebP encoding at the fixed quality are abstract
transformations of the payload. -/
structure Codec where
  decode : Bytes → Option Bytes
  toRGB : Bytes → Bytes
  encodeWebp : Bytes → Bytes

/-- The index structure serialized to `list.json`:
`date → label → ordered list of archive file names` with both dict levels in
insertion order. -/
abbrev Index := List (FName × List (FName × List FName))

/-- The filesystem state touched by the pipeline: the flat source directory,
the archive directory, and the contents of `list.json` (if written). -/
structure FS where
  source : List (FName × Bytes)
  archive : List (FName × Bytes)
  listJson : Option Index
deriving DecidableEq

/-- First-match lookup in a directory (or any association list). -/
def alookup {β : Type} : List (FName × β) → FName → Option β
  | [], _ => none
  | (m, v) :: rest, n => if m = n then some v else alookup rest n

/-- `os.path.exists` for a directory listing. -/
def dirHas {β : Type} (d : List (FName × β)) (n : FName) : Bool :=
  (alookup d n).isSome

/-- Writing a file: overwrite an existing entry, else append a new one. -/
def awrite {β : Type} : List (FName × β) → FName → β → List (FName × β)
  | [], n, b => [(n, b)]
  | (m, v) :: rest, n, b =>
    if m = n then (m, b) :: rest else (m, v) :: awrite rest n b

/-- Removing a file from a directory listing. -/
def aremove {β : Type} (d : List (FName × β)) (n : FName) : List (FName × β) :=
  d.filter (fun p => decide (p.1 ≠ n))

/-- Result reported by the converter for one file. -/
inductive ConvResult
  | skipped (webpName : FName)
  | converted (webpName : FName)
  | failed
deriving DecidableEq

/-- The destination name `<stem>.webp` of a converted file. -/
def webpNameOf (pngName : FName) : FName := (splitext pngName).1 ++ extWebp

/-- `convert_to_webp` from `convert.py`: skip if the destination exists in
the archive; otherwise open and decode the source (`failed` models the
uncaught exception Pillow raises on a missing or malformed file), flatten to
RGB, encode to WebP and write the destination. -/
def convert_to_webp (cod : Codec) (fs : FS) (pngName : FName) : FS × ConvResult :=
  let wn := webpNameOf pngName
  if dirHas fs.archive wn then (fs, ConvResult.skipped wn)
  else
    match alookup fs.source pngName with
    | none => (fs, ConvResult.failed)
    | some b =>
      match cod.decode b with
      | none => (fs, ConvResult.failed)
      | some img =>
        ({ fs with archive := awrite fs.archive wn (cod.encodeWebp (cod.toRGB img)) },
          ConvResult.converted wn)

/-- The collision destination `<stem>_<ts><ext>` used by `archive_original`
when the plain destination already exists; `ts` is `datetime.now()`
formatted as hours-minutes-seconds. -/
def collisionName (n : FName) (ts : FName) : FName :=
  (splitext n).1 ++ usc :: (ts ++ (splitext n).2)

/-- `archive_original` from `convert.py`: move the source file into the
archive, appending a time suffix to the name when the plain destination is
taken.  The Bool is `false` exactly when the source file is missing (the
uncaught `shutil.move` error). -/
def archive_original (fs : FS) (ts : FName) (pngName : FName) : FS × Bool :=
  match alookup fs.source pngName with
  | none => (fs, false)
  | some b =>
    let dest := if dirHas fs.archive pngName then collisionName pngName ts else pngName
    ({ fs with
        source := aremove fs.source pngName,
        archive := awrite fs.archive dest b }, true)

/-- A concrete total codec for witnesses. -/
def codOk : Codec := ⟨fun b => some b, fun b => b, fun b => b⟩

/-- `260206_SM_01.png` -/
def png1 : FName :=
  ['2', '6', '0', '2', '0', '6', '_', 'S', 'M', '_', '0', '1', '.', 'p', 'n', 'g']

/-- `260206_SM_01.webp` -/
def webp1 : FName :=
  ['2', '6', '0', '2', '0', '6', '_', 'S', 'M', '_', '0', '1', '.', 'w', 'e', 'b', 'p']

/-- `120000`, an hours-minutes-seconds stamp. -/
def ts1 : FName := ['1', '2', '0', '0', '0', '0']

/-- One date group of the intermediate dict: label → list of
(page, filename) pairs, in insertion order. -/
abbrev LabelMap := List (FName × List (Nat × FName))

/-- The intermediate dict of `build_list_json`: date → group, in insertion
order. -/
abbrev DateMap := List (FName × LabelMap)

/-- The Python-dict update pattern `if k not in d: d[k] = dflt` followed by a
mutation of `d[k]`: the first entry for `k` is updated in place, or a new
entry is appended at the end (Python dicts preserve insertion order). -/
def updAssoc {β : Type} (k : FName) (dflt : β) (f : β → β) :
    List (FName × β) → List (FName × β)
  | [] => [(k, f dflt)]
  | (m, v) :: rest =>
    if m = k then (m, f v) :: rest else (m, v) :: updAssoc k dflt f rest

/-- One loop iteration of `build_list_json`: parse the filename (skipping it
on a parse failure, the `except` branch) and append `(page_num, webp_name)`
to `data[date][label]`. -/
def addEntry (data : DateMap) (w : FName) : DateMap :=
  match parse_filename w with
  | none => data
  | some (d, l, p) =>
    updAssoc d [] (fun grp => updAssoc l [] (fun ps => ps ++ [(p, w)]) grp) data

/-- The filter of `build_list_json`:
`f.endswith('.webp') and len(f.split('_')) >= 3`. -/
def isSlideWebp (f : FName) : Bool :=
  extWebp.isSuffixOf f && decide (3 ≤ (pysplit usc f).length)

/-- Python `sorted` on strings (ascending lexicographic, stable). -/
def pysorted (l : List FName) : List FName := List.insertionSort (· ≤ ·) l

/-- Python `sorted(·, reverse=True)` on strings (descending, stable). -/
def pysortedDown (l : List FName) : List FName := List.insertionSort (· ≥ ·) l

/-- The sort key `lambda x: x[0]` of `build_list_json` (page number). -/
def pageLe (a b : Nat × FName) : Prop := a.1 ≤ b.1

instance : DecidableRel pageLe := fun a b => Nat.decLe a.1 b.1

instance : IsTotal (Nat × FName) pageLe := ⟨fun a b => Nat.le_total a.1 b.1⟩

instance : IsTrans (Nat × FName) pageLe := ⟨fun _ _ _ => Nat.le_trans⟩

/-- Python `sorted(pairs, key=lambda x: x[0])` (stable). -/
def sortByPage (l : List (Nat × FName)) : List (Nat × FName) :=
  List.insertionSort pageLe l

/-- `build_list_json` from `convert.py`, as a function of the archive
directory listing: filter the slide-format `.webp` names, group by date and
label into an insertion-ordered dict, then emit dates descending, labels
ascending, and each file list by ascending page number.  `emitSorted` is the
emission half (the second loop of `build_list_json`). -/
def emitSorted (data : DateMap) : Index :=
  (pysortedDown (data.map Prod.fst)).map (fun d =>
    (d, (pysorted (((alookup data d).getD []).map Prod.fst)).map (fun l =>
      (l, (sortByPage ((alookup ((alookup data d).getD []) l).getD [])).map
        Prod.snd))))

/-- `build_list_json` composed: filter, group, emit. -/
def build_list_json (names : List FName) : Index :=
  emitSorted ((names.filter isSlideWebp).foldl addEntry [])

/-- The ordering invariants the spec states for the index: dates strictly
descending, labels strictly ascending within a date, filenames by
non-decreasing parsed page number within a label. -/
def indexOrdered (idx : Index) : Prop :=
  (idx.map Prod.fst).Pairwise (fun a b => b < a) ∧
  ∀ dg ∈ idx, ((dg.2.map Prod.fst).Pairwise (fun a b => a < b) ∧
    ∀ lf ∈ dg.2, lf.2.Pairwise (fun a b => pageOf a ≤ pageOf b))

/-- The invariant maintained over the grouping dict: keys are distinct at
both levels and every stored pair `(p, w)` parses back to its date, label
and page. -/
def DataInv (data : DateMap) : Prop :=
  (data.map Prod.fst).Nodup ∧
  ∀ dg ∈ data, ((dg.2.map Prod.fst).Nodup ∧
    ∀ lp ∈ dg.2, ∀ pw ∈ lp.2, parse_filename pw.2 = some (dg.1, lp.1, pw.1))

/-- Observable per-file events of the main loop: the converter call for a
file completed (`conv`), the original was moved to the archive (`arch`). -/
inductive Ev
  | conv (f : FName)
  | arch (f : FName)
deriving DecidableEq

/-- The `for png_path in sorted(slide_pngs)` loop of `process`: convert, then
archive, per file; an uncaught converter or mover exception aborts the loop
(flag `false`), carrying the filesystem state reached so far. -/
def runFiles (cod : Codec) (clock : Nat → FName) :
    List FName → Nat → FS → FS × List Ev × Bool
  | [], _, fs => (fs, [], true)
  | f :: rest, i, fs =>
    let c := convert_to_webp cod fs f
    if c.2 = ConvResult.failed then (c.1, [], false)
    else
      let a := archive_original c.1 (clock i) f
      if a.2 = true then
        let r := runFiles cod clock rest (i + 1) a.1
        (r.1, Ev.conv f :: Ev.arch f :: r.2.1, r.2.2)
      else (a.1, [Ev.conv f], false)

/-- `process` from `convert.py`: discover the slide files, process them in
sorted order, and (when no exception aborted the loop) rebuild `list.json`
from the archive directory contents.  `clock i` is the time stamp observed
by the `i`-th archive move. -/
def process (cod : Codec) (clock : Nat → FName) (fs : FS) : FS × List Ev × Bool :=
  let r := runFiles cod clock
    (pysorted (find_slide_pngs (fs.source.map Prod.fst))) 0 fs
  if r.2.2 = true then
    ({ r.1 with
        listJson := some (build_list_json (r.1.archive.map Prod.fst)) },
      r.2.1, true)
  else r

/-- Every archive event in the trace is preceded by a conversion event for
the same file: the pipeline never archives before converting. -/
def convBeforeArch (evs : List Ev) : Prop :=
  ∀ f j, evs.get? j = some (Ev.arch f) →
    ∃ i, i < j ∧ evs.get? i = some (Ev.conv f)

/-- A constant clock: every archive move observes `120000`. -/
def clock0 : Nat → FName := fun _ => ts1

/-- `260206` -/
def date1 : FName := ['2', '6', '0', '2', '0', '6']

/-- `SM` -/
def labSM : FName := ['S', 'M']

/-- A source directory holding the single slide file `260206_SM_01.png`. -/
def fs9 : FS := ⟨[(png1, 1)], [], none⟩

/-- The state a successful run over `fs9` produces: source emptied, the
WebP and the original co-located in the archive, the index rebuilt. -/
def fs9Done : FS := ⟨[], [(webp1, 1), (png1, 1)], some [(date1, [(labSM, [webp1])])]⟩

/-- `260206_SM_02.png` -/
def png2 : FName :=
  ['2', '6', '0', '2', '0', '6', '_', 'S', 'M', '_', '0', '2', '.', 'p', 'n', 'g']

/-- A codec for which the payload `0` is a malformed image (decoding
raises), while any other payload decodes fine. -/
def codBad : Codec := ⟨fun b => if b = 0 then none else some b, fun b => b, fun b => b⟩

/-- A batch of two slide files whose first (in sorted order) is malformed. -/
def fs7 : FS := ⟨[(png1, 0), (png2, 5)], [], none⟩

/-- `260206_SM_²².webp`: a slide-format archive name whose page segment is
`isdigit`-true through superscript digits, so `int()` rejects it. -/
def webpSuper : FName :=
  ['2', '6', '0', '2', '0', '6', '_', 'S', 'M', '_', '²', '²', '.', 'w', 'e', 'b', 'p']

/-! ### Theorems -/

theorem splitAux_ne_nil (c : Char) (s acc : List Char) : splitAux c s acc ≠ [] := by
  induction s generalizing acc with
  | nil => simp [splitAux]
  | cons x xs ih =>
    by_cases h : x = c <;> simp [splitAux, h, ih]

theorem splitAux_append_no_sep (c : Char) (xs ys acc : List Char)
    (h : ∀ x ∈ xs, x ≠ c) :
    splitAux c (xs ++ ys) acc = splitAux c ys (xs.reverse ++ acc) := by
  induction xs generalizing acc with
  | nil => simp
  | cons x xs ih =>
    have hx : x ≠ c := h x (by simp)
    have hrest : ∀ y ∈ xs, y ≠ c := fun y hy => h y (by simp [hy])
    calc splitAux c (x :: xs ++ ys) acc
        = splitAux c (xs ++ ys) (x :: acc) := by simp [splitAux, hx]
      _ = splitAux c ys (xs.reverse ++ (x :: acc)) := ih (x :: acc) hrest
      _ = splitAux c ys ((x :: xs).reverse ++ acc) := by simp

theorem pysplit_no_sep (c : Char) (s : List Char) (h : ∀ x ∈ s, x ≠ c) :
    pysplit c s = [s] := by
  have := splitAux_append_no_sep c s [] [] h
  simpa [pysplit, splitAux] using this

theorem pysplit_joinU (parts : List FName) (hne : parts ≠ [])
    (h : ∀ p ∈ parts, usc ∉ p) :
    pysplit usc (joinU parts) = parts := by
  induction parts with
  | nil => exact absurd rfl hne
  | cons p rest ih =>
    cases rest with
    | nil =>
      exact pysplit_no_sep usc p (fun x hx hxc => h p (by simp) (hxc ▸ hx))
    | cons q rest2 =>
      have hp : ∀ x ∈ p, x ≠ usc :=
        fun x hx hxc => h p (by simp) (hxc ▸ hx)
      have hrest : ∀ r ∈ q :: rest2, usc ∉ r := fun r hr => h r (by simp [hr])
      have step : pysplit usc (joinU (p :: q :: rest2))
          = p :: pysplit usc (joinU (q :: rest2)) := by
        show splitAux usc (p ++ usc :: joinU (q :: rest2)) [] = _
        rw [splitAux_append_no_sep usc p _ [] hp]
        simp [splitAux, pysplit]
      rw [step, ih (by simp) hrest]

theorem joinU_concat (l : List FName) (p : FName) (h : l ≠ []) :
    joinU (l ++ [p]) = joinU l ++ usc :: p := by
  induction l with
  | nil => exact absurd rfl h
  | cons x rest ih =>
    cases rest with
    | nil => simp [joinU]
    | cons y rest2 =>
      have ih2 : joinU (y :: rest2 ++ [p]) = joinU (y :: rest2) ++ usc :: p :=
        ih (by simp)
      have e1 : joinU (x :: y :: rest2 ++ [p])
          = x ++ usc :: joinU (y :: rest2 ++ [p]) := rfl
      have e2 : joinU (x :: y :: rest2) = x ++ usc :: joinU (y :: rest2) := rfl
      rw [e1, ih2, e2]
      simp

/-- C1, part of the proof: the split of a conforming stem recovers the
segments. -/
theorem pysplit_conforming (d p : FName) (mid : List FName)
    (hd : usc ∉ d) (hp : usc ∉ p) (hm : ∀ s ∈ mid, usc ∉ s) :
    pysplit usc (joinU (d :: mid ++ [p])) = d :: mid ++ [p] := by
  refine pysplit_joinU _ (by simp) ?_
  intro s hs
  rcases List.mem_cons.mp hs with h | h
  · exact h ▸ hd
  · rcases List.mem_append.mp h with h2 | h2
    · exact hm s h2
    · rcases List.mem_singleton.mp h2 with rfl
      exact hp

/-- C1: for a conforming filename with stem `D_L1_..._Lk_P` (k ≥ 1, segments
free of the delimiter), `parse_filename` returns the date `D`, the label
`L1_..._Lk` rejoined with the delimiter, and the page `int(P)` when `P` is
all digits; and rejoining `D`, label, `P` with the delimiter reproduces the
stem. -/
theorem allDecimal_pyIsDigit (s : FName) (h : allDecimal s = true) :
    pyIsDigit s = true := by
  simp only [allDecimal, Bool.and_eq_true, List.all_eq_true] at h
  simp only [pyIsDigit, Bool.and_eq_true, List.all_eq_true]
  exact ⟨h.1, fun c hc => by simp [h.2 c hc]⟩

theorem c1_parse_roundtrip (d p fname fext : FName) (mid : List FName)
    (hmid : mid ≠ [])
    (hd : usc ∉ d) (hp : usc ∉ p) (hm : ∀ s ∈ mid, usc ∉ s)
    (hdig : allDecimal p = true)
    (hsplit : splitext fname = (joinU (d :: mid ++ [p]), fext)) :
    parse_filename fname = some (d, joinU mid, charsToNat p) ∧
    joinU [d, joinU mid, p] = joinU (d :: mid ++ [p]) := by
  have hparts : pysplit usc (splitext fname).1 = d :: mid ++ [p] := by
    rw [hsplit]
    exact pysplit_conforming d p mid hd hp hm
  constructor
  · have hlast : (d :: mid ++ [p]).getLast? = some p := by
      have h2 := List.getLast?_concat (d :: mid) (a := p)
      simpa using h2
    have hpv : pageVal p = some (charsToNat p) := by
      simp [pageVal, pyInt, allDecimal_pyIsDigit p hdig, hdig]
    simp only [parse_filename, hparts, List.head?_cons, hlast]
    simp [hpv]
  · have h1 : joinU (d :: mid ++ [p]) = joinU (d :: mid) ++ usc :: p := by
      have := joinU_concat (d :: mid) p (by simp)
      simpa using this
    have h2 : joinU (d :: mid) = d ++ usc :: joinU mid := by
      cases mid with
      | nil => exact absurd rfl hmid
      | cons y rest => simp [joinU]
    have h3 : joinU [d, joinU mid, p] = d ++ usc :: (joinU mid ++ usc :: p) := by
      simp [joinU]
    rw [h3, h1, h2]
    simp

/-- C1 witness: the concrete conforming filename `260206_SM_01.webp`. -/
theorem c1_parse_roundtrip_witness :
    parse_filename
        ['2', '6', '0', '2', '0', '6', '_', 'S', 'M', '_', '0', '1', '.', 'w', 'e', 'b', 'p']
      = some (['2', '6', '0', '2', '0', '6'], ['S', 'M'], 1) ∧
    joinU [['2', '6', '0', '2', '0', '6'], joinU [['S', 'M']], ['0', '1']]
      = joinU [['2', '6', '0', '2', '0', '6'], ['S', 'M'], ['0', '1']] := by
  have h := c1_parse_roundtrip
    ['2', '6', '0', '2', '0', '6'] ['0', '1']
    ['2', '6', '0', '2', '0', '6', '_', 'S', 'M', '_', '0', '1', '.', 'w', 'e', 'b', 'p']
    ['.', 'w', 'e', 'b', 'p'] [['S', 'M']]
    (by decide) (by decide) (by decide) (by decide) (by decide) (by decide)
  simpa using h

/-- C10 counterexample: `parse_filename` is not total — on
`260206_SM_²².webp` the page segment `²²` passes `isdigit` yet `int()`
raises `ValueError`, so `parse_filename` raises (`none`) and
`build_list_json` reaches its `except` branch and skips the entry (the name
passes the `.webp` / three-segment filter, yet the index stays empty). -/
theorem c10_superscript_digit_raises :
    parse_filename webpSuper = none ∧
    isSlideWebp webpSuper = true ∧
    build_list_json [webpSuper] = [] := by
  refine ⟨by decide, by decide, by decide⟩

/-- C10 (amended): the split always has a first and a last segment, so the
indexing in `parse_filename` never fails; a non-`isdigit` page segment
yields page `0`; and the one way `parse_filename` raises — making the
`except` branch of `build_list_json` reachable — is a page segment that
passes `isdigit` while containing a digit-property character `int()`
rejects. -/
theorem c10_parse_total_amended (w : FName) :
    ∃ d pg, (pysplit usc (splitext w).1).head? = some d ∧
      (pysplit usc (splitext w).1).getLast? = some pg ∧
      (parse_filename w = none ↔ (pyIsDigit pg = true ∧ allDecimal pg = false)) ∧
      (pyIsDigit pg = false →
        parse_filename w
          = some (d, joinU (((pysplit usc (splitext w).1).drop 1).dropLast), 0)) := by
  cases hparts : pysplit usc (splitext w).1 with
  | nil => exact absurd hparts (splitAux_ne_nil usc _ [])
  | cons a l =>
    obtain ⟨pg, hpg⟩ : ∃ pg, (a :: l).getLast? = some pg :=
      ⟨(a :: l).getLast (by simp), List.getLast?_eq_getLast _ (by simp)⟩
    refine ⟨a, pg, rfl, hpg, ?_, ?_⟩
    · cases hd : pyIsDigit pg with
      | false =>
        have hpv : pageVal pg = some 0 := by simp [pageVal, hd]
        simp [parse_filename, hparts, hpg, hpv]
      | true =>
        cases hdec : allDecimal pg with
        | true =>
          have hpv : pageVal pg = some (charsToNat pg) := by
            simp [pageVal, pyInt, hd, hdec]
          simp [parse_filename, hparts, hpg, hpv]
        | false =>
          have hpv : pageVal pg = none := by simp [pageVal, pyInt, hd, hdec]
          simp [parse_filename, hparts, hpg, hpv]
    · intro hd
      have hpv : pageVal pg = some 0 := by simp [pageVal, hd]
      simp [parse_filename, hparts, hpg, hpv]

theorem mem_find_slide_pngs (names : List FName) (f : FName) :
    f ∈ find_slide_pngs names ↔
      f ∈ names ∧ (extPng.isSuffixOf f && !hiddenName f) = true ∧
        3 ≤ (pysplit usc (splitext f).1).length := by
  simp only [find_slide_pngs, globPng, List.mem_filter, decide_eq_true_eq,
    Bool.and_eq_true]
  tauto

/-- C3 counterexample: `a_b_c.txt` has three segments once its extension is
stripped, yet Discovery excludes it (the glob only matches `*.png`), so
membership is not equivalent to the segment-count test alone. -/
theorem c3_counterexample :
    ¬ (['a', '_', 'b', '_', 'c', '.', 't', 'x', 't']
          ∈ find_slide_pngs [['a', '_', 'b', '_', 'c', '.', 't', 'x', 't']] ↔
        3 ≤ (pysplit usc
          (splitext ['a', '_', 'b', '_', 'c', '.', 't', 'x', 't']).1).length) := by
  decide

/-- C3 (amended): Discovery includes a file of the source directory exactly
when it is a non-hidden `.png` file (so the `*.png` glob matches it) whose
extension-stripped base name splits into three or more segments on the
delimiter. -/
theorem c3_discovery_characterization (names : List FName) (f : FName) :
    f ∈ find_slide_pngs names ↔
      f ∈ names ∧ (extPng.isSuffixOf f && !hiddenName f) = true ∧
        3 ≤ (pysplit usc (splitext f).1).length :=
  mem_find_slide_pngs names f

theorem awrite_absent {β : Type} (d : List (FName × β)) (n : FName) (b : β)
    (h : dirHas d n = false) : awrite d n b = d ++ [(n, b)] := by
  induction d with
  | nil => rfl
  | cons x rest ih =>
    obtain ⟨m, v⟩ := x
    by_cases hm : m = n
    · simp [dirHas, alookup, hm] at h
    · simp only [awrite, if_neg hm, List.cons_append, List.cons.injEq, true_and]
      exact ih (by simpa [dirHas, alookup, hm] using h)

theorem alookup_awrite_self {β : Type} (d : List (FName × β)) (n : FName) (b : β) :
    alookup (awrite d n b) n = some b := by
  induction d with
  | nil => simp [awrite, alookup]
  | cons x rest ih =>
    obtain ⟨m, v⟩ := x
    by_cases hm : m = n <;> simp [awrite, alookup, hm, ih]

theorem alookup_awrite_other {β : Type} (d : List (FName × β)) (n m : FName) (b : β)
    (h : m ≠ n) : alookup (awrite d n b) m = alookup d m := by
  have hnm : n ≠ m := fun hc => h hc.symm
  induction d with
  | nil => simp [awrite, alookup, hnm]
  | cons x rest ih =>
    obtain ⟨k, v⟩ := x
    by_cases hk : k = n
    · subst hk
      simp [awrite, alookup, hnm]
    · simp [awrite, alookup, hk, ih]

theorem dropWhile_head_not {α : Type} (p : α → Bool) (l : List α) (c : α)
    (tl : List α) (h : l.dropWhile p = c :: tl) : p c = false := by
  induction l with
  | nil => simp [List.dropWhile] at h
  | cons x xs ih =>
    by_cases hx : p x = true
    · exact ih (by simpa [List.dropWhile_cons, hx] using h)
    · have hx2 : p x = false := by
        cases h2 : p x
        · rfl
        · exact absurd h2 hx
      rw [List.dropWhile_cons, hx2] at h
      simp only [Bool.false_eq_true, if_false, List.cons.injEq] at h
      exact h.1 ▸ hx2

theorem splitext_append (s : FName) : (splitext s).1 ++ (splitext s).2 = s := by
  cases hD : s.reverse.dropWhile (fun c => c != '.') with
  | nil =>
    have hsp : splitext s = (s, []) := by
      simp [splitext, hD]
    rw [hsp]
    simp
  | cons c0 tl =>
    have hc0 : c0 = '.' := by
      have h2 := dropWhile_head_not (fun c => c != '.') s.reverse c0 tl hD
      simpa using h2
    subst hc0
    have hTD : (s.reverse.takeWhile (fun c => c != '.')) ++ '.' :: tl = s.reverse := by
      rw [← hD]
      exact List.takeWhile_append_dropWhile _ _
    have hs : tl.reverse ++ '.' :: (s.reverse.takeWhile (fun c => c != '.')).reverse
        = s := by
      have h3 := congrArg List.reverse hTD
      simpa using h3
    by_cases hany : (tl.reverse.any (fun c => c != '.')) = true
    · have hsp : splitext s
          = (tl.reverse, '.' :: (s.reverse.takeWhile (fun c => c != '.')).reverse) := by
        simp [splitext, hD, hany]
      rw [hsp]
      exact hs
    · have hsp : splitext s = (s, []) := by
        simp [splitext, hD, hany]
      rw [hsp]
      simp

theorem collisionName_length (n ts : FName) :
    (collisionName n ts).length = n.length + 1 + ts.length := by
  have hsp := congrArg List.length (splitext_append n)
  simp only [List.length_append] at hsp
  simp [collisionName, List.length_append]
  omega

theorem collisionName_ne (n ts : FName) : collisionName n ts ≠ n := by
  intro h
  have hlen := congrArg List.length h
  rw [collisionName_length] at hlen
  omega

/-- C4: if the destination WebP already exists, conversion is a no-op that
reports a skip and still returns the destination name; otherwise (and when
the source decodes) it appends exactly the one new destination file to the
archive. -/
theorem c4_convert_idempotent (cod : Codec) (fs : FS) (png : FName) :
    (dirHas fs.archive (webpNameOf png) = true →
      convert_to_webp cod fs png = (fs, ConvResult.skipped (webpNameOf png))) ∧
    (dirHas fs.archive (webpNameOf png) = false →
      ∀ b img, alookup fs.source png = some b → cod.decode b = some img →
        convert_to_webp cod fs png =
          ({ fs with archive :=
              fs.archive ++ [(webpNameOf png, cod.encodeWebp (cod.toRGB img))] },
            ConvResult.converted (webpNameOf png))) := by
  constructor
  · intro h
    simp [convert_to_webp, h]
  · intro h b img hb himg
    simp [convert_to_webp, h, hb, himg, awrite_absent fs.archive (webpNameOf png) _ h]

theorem c4_convert_idempotent_witness :
    convert_to_webp codOk ⟨[(png1, 1)], [(webp1, 2)], none⟩ png1
      = (⟨[(png1, 1)], [(webp1, 2)], none⟩, ConvResult.skipped (webpNameOf png1)) ∧
    convert_to_webp codOk ⟨[(png1, 1)], [], none⟩ png1
      = (⟨[(png1, 1)], [] ++ [(webpNameOf png1, codOk.encodeWebp (codOk.toRGB 1))], none⟩,
          ConvResult.converted (webpNameOf png1)) :=
  ⟨(c4_convert_idempotent codOk ⟨[(png1, 1)], [(webp1, 2)], none⟩ png1).1 (by decide),
   (c4_convert_idempotent codOk ⟨[(png1, 1)], [], none⟩ png1).2 (by decide) 1 1
      (by decide) (by decide)⟩

/-- C5: archiving a second original whose basename is already taken in the
archive moves it to the time-suffixed name: the suffixed name differs from
the plain one, the first archived file is untouched, and the second lands
beside it (no overwrite), provided the suffixed name is itself free. -/
theorem c5_archive_collision (fs : FS) (png ts : FName) (b1 b2 : Bytes)
    (h1 : alookup fs.archive png = some b1)
    (h2 : alookup fs.source png = some b2)
    (_h3 : dirHas fs.archive (collisionName png ts) = false) :
    (archive_original fs ts png).2 = true ∧
    collisionName png ts ≠ png ∧
    alookup (archive_original fs ts png).1.archive png = some b1 ∧
    alookup (archive_original fs ts png).1.archive (collisionName png ts) = some b2 := by
  have hhas : dirHas fs.archive png = true := by simp [dirHas, h1]
  have hne : collisionName png ts ≠ png := collisionName_ne png ts
  have harch : (archive_original fs ts png).1.archive
      = awrite fs.archive (collisionName png ts) b2 := by
    simp [archive_original, h2, hhas]
  refine ⟨by simp [archive_original, h2], hne, ?_, ?_⟩
  · rw [harch, alookup_awrite_other fs.archive _ png b2 (fun hc => hne hc.symm)]
    exact h1
  · rw [harch, alookup_awrite_self]

theorem c5_archive_collision_witness :
    (archive_original ⟨[(png1, 5)], [(png1, 4)], none⟩ ts1 png1).2 = true ∧
    collisionName png1 ts1 ≠ png1 ∧
    alookup (archive_original ⟨[(png1, 5)], [(png1, 4)], none⟩ ts1 png1).1.archive png1
      = some 4 ∧
    alookup (archive_original ⟨[(png1, 5)], [(png1, 4)], none⟩ ts1 png1).1.archive
        (collisionName png1 ts1)
      = some 5 :=
  c5_archive_collision ⟨[(png1, 5)], [(png1, 4)], none⟩ png1 ts1 4 5
    (by decide) (by decide) (by decide)

theorem updAssoc_map_fst {β : Type} (k : FName) (dflt : β) (f : β → β)
    (l : List (FName × β)) :
    (updAssoc k dflt f l).map Prod.fst
      = if k ∈ l.map Prod.fst then l.map Prod.fst else l.map Prod.fst ++ [k] := by
  induction l with
  | nil => simp [updAssoc]
  | cons x rest ih =>
    obtain ⟨m, v⟩ := x
    by_cases hm : m = k
    · subst hm
      have hcond : m ∈ ((m, v) :: rest).map Prod.fst :=
        List.mem_map.mpr ⟨(m, v), List.mem_cons_self _ _, rfl⟩
      have h1 : updAssoc m dflt f ((m, v) :: rest) = (m, f v) :: rest := by
        show (if m = m then (m, f v) :: rest else (m, v) :: updAssoc m dflt f rest)
          = (m, f v) :: rest
        rw [if_pos rfl]
      rw [h1, if_pos hcond]
      simp
    · have hne : ¬k = m := fun hc => hm hc.symm
      have h1 : updAssoc k dflt f ((m, v) :: rest)
          = (m, v) :: updAssoc k dflt f rest := by
        show (if m = k then (m, f v) :: rest else (m, v) :: updAssoc k dflt f rest)
          = (m, v) :: updAssoc k dflt f rest
        rw [if_neg hm]
      have hmem : k ∈ ((m, v) :: rest).map Prod.fst ↔ k ∈ rest.map Prod.fst := by
        simp only [List.map_cons, List.mem_cons]
        exact ⟨fun h2 => h2.resolve_left hne, fun h2 => Or.inr h2⟩
      rw [h1]
      by_cases hk : k ∈ rest.map Prod.fst
      · rw [if_pos (hmem.mpr hk)]
        simp only [List.map_cons]
        rw [ih, if_pos hk]
      · rw [if_neg (fun hc => hk (hmem.mp hc))]
        simp only [List.map_cons, List.cons_append]
        rw [ih, if_neg hk]

theorem updAssoc_nodup {β : Type} (k : FName) (dflt : β) (f : β → β)
    (l : List (FName × β)) (h : (l.map Prod.fst).Nodup) :
    ((updAssoc k dflt f l).map Prod.fst).Nodup := by
  rw [updAssoc_map_fst]
  by_cases hk : k ∈ l.map Prod.fst
  · simpa [hk] using h
  · simp only [hk, if_false]
    simp [List.nodup_append, h, hk]

theorem updAssoc_forall {β : Type} {P : FName × β → Prop} (k : FName) (dflt : β)
    (f : β → β) (l : List (FName × β))
    (hl : ∀ x ∈ l, P x) (hd : P (k, f dflt))
    (hf : ∀ v, (k, v) ∈ l → P (k, f v)) :
    ∀ x ∈ updAssoc k dflt f l, P x := by
  induction l with
  | nil =>
    intro x hx
    have hx2 : x = (k, f dflt) := by simpa [updAssoc] using hx
    rw [hx2]
    exact hd
  | cons y rest ih =>
    obtain ⟨m, v⟩ := y
    by_cases hm : m = k
    · subst hm
      intro x hx
      simp only [updAssoc, if_true] at hx
      rcases List.mem_cons.mp hx with hx1 | hx2
      · rw [hx1]
        exact hf v (List.mem_cons_self _ _)
      · exact hl x (List.mem_cons_of_mem _ hx2)
    · intro x hx
      simp only [updAssoc] at hx
      rw [if_neg hm] at hx
      rcases List.mem_cons.mp hx with hx1 | hx2
      · rw [hx1]
        exact hl (m, v) (List.mem_cons_self _ _)
      · exact ih (fun z hz => hl z (List.mem_cons_of_mem _ hz))
          (fun w hw => hf w (List.mem_cons_of_mem _ hw)) x hx2

theorem alookup_mem {β : Type} (l : List (FName × β)) (k : FName)
    (hk : k ∈ l.map Prod.fst) : ∃ v, alookup l k = some v ∧ (k, v) ∈ l := by
  induction l with
  | nil => simp at hk
  | cons x rest ih =>
    obtain ⟨m, v⟩ := x
    by_cases hm : m = k
    · subst hm
      exact ⟨v, by simp [alookup], by simp⟩
    · have hk2 : k ∈ rest.map Prod.fst := by
        rcases List.mem_map.mp hk with ⟨y, hy, hyk⟩
        rcases List.mem_cons.mp hy with rfl | hy2
        · exact absurd hyk hm
        · exact List.mem_map.mpr ⟨y, hy2, hyk⟩
      obtain ⟨w, hw1, hw2⟩ := ih hk2
      exact ⟨w, by simp [alookup, hm, hw1], by simp [hw2]⟩

theorem addEntry_inv (data : DateMap) (w : FName) (h : DataInv data) :
    DataInv (addEntry data w) := by
  cases hp : parse_filename w with
  | none => simpa [addEntry, hp] using h
  | some dlp =>
    obtain ⟨d, l, p⟩ := dlp
    constructor
    · simp only [addEntry, hp]
      exact updAssoc_nodup d [] _ data h.1
    · simp only [addEntry, hp]
      refine updAssoc_forall d [] _ data h.2 ?_ ?_
      · constructor
        · simp [updAssoc]
        · intro lp hlp pw hpw
          simp only [updAssoc, List.mem_singleton] at hlp
          subst hlp
          simp only [List.nil_append, List.mem_singleton] at hpw
          subst hpw
          exact hp
      · intro grp hgrp
        obtain ⟨hnodupG, hinvG⟩ := h.2 (d, grp) hgrp
        constructor
        · exact updAssoc_nodup l [] _ grp hnodupG
        · refine updAssoc_forall l [] _ grp hinvG ?_ ?_
          · intro pw hpw
            simp only [List.nil_append, List.mem_singleton] at hpw
            subst hpw
            exact hp
          · intro ps hps pw hpw
            rcases List.mem_append.mp hpw with h1 | h1
            · exact hinvG (l, ps) hps pw h1
            · rcases List.mem_singleton.mp h1 with rfl
              exact hp

theorem foldl_addEntry_inv (ws : List FName) (data : DateMap) (h : DataInv data) :
    DataInv (ws.foldl addEntry data) := by
  induction ws generalizing data with
  | nil => exact h
  | cons w rest ih => exact ih (addEntry data w) (addEntry_inv data w h)

theorem map_fst_pair {α β : Type} (g : α → β) (l : List α) :
    (l.map (fun a => (a, g a))).map Prod.fst = l := by
  induction l with
  | nil => rfl
  | cons x xs ih => simp [ih]

theorem emitSorted_ordered (data : DateMap) (hinv : DataInv data) :
    indexOrdered (emitSorted data) := by
  have hdates_sorted : (pysortedDown (data.map Prod.fst)).Sorted (· ≥ ·) :=
    List.sorted_insertionSort _ _
  have hdates_perm : (pysortedDown (data.map Prod.fst)).Perm (data.map Prod.fst) :=
    List.perm_insertionSort _ _
  have hdates_nodup : (pysortedDown (data.map Prod.fst)).Nodup :=
    hdates_perm.symm.nodup hinv.1
  constructor
  · have hmapfst : (emitSorted data).map Prod.fst
        = pysortedDown (data.map Prod.fst) := by
      unfold emitSorted
      exact map_fst_pair _ _
    rw [hmapfst]
    exact (List.Pairwise.and hdates_sorted hdates_nodup).imp
      (fun hab => lt_of_le_of_ne hab.1 (fun hc => hab.2 hc.symm))
  · intro dg hdg
    rcases List.mem_map.mp hdg with ⟨d, hd_mem, rfl⟩
    have hd_keys : d ∈ data.map Prod.fst := hdates_perm.mem_iff.mp hd_mem
    obtain ⟨grp, hgrp_lookup, hgrp_mem⟩ := alookup_mem data d hd_keys
    obtain ⟨hnodupG, hinvG⟩ := hinv.2 (d, grp) hgrp_mem
    have hlab_sorted : (pysorted (grp.map Prod.fst)).Sorted (· ≤ ·) :=
      List.sorted_insertionSort _ _
    have hlab_perm : (pysorted (grp.map Prod.fst)).Perm (grp.map Prod.fst) :=
      List.perm_insertionSort _ _
    have hlab_nodup : (pysorted (grp.map Prod.fst)).Nodup :=
      hlab_perm.symm.nodup hnodupG
    constructor
    · simp only [hgrp_lookup, Option.getD_some]
      rw [map_fst_pair]
      exact (List.Pairwise.and hlab_sorted hlab_nodup).imp
        (fun hab => lt_of_le_of_ne hab.1 hab.2)
    · intro lf hlf
      simp only [hgrp_lookup, Option.getD_some] at hlf
      rcases List.mem_map.mp hlf with ⟨l, hl_mem, rfl⟩
      have hl_keys : l ∈ grp.map Prod.fst := hlab_perm.mem_iff.mp hl_mem
      obtain ⟨ps, hps_lookup, hps_mem⟩ := alookup_mem grp l hl_keys
      simp only [hps_lookup, Option.getD_some]
      have hsorted : (sortByPage ps).Sorted pageLe := List.sorted_insertionSort _ _
      have hperm : (sortByPage ps).Perm ps := List.perm_insertionSort _ _
      rw [List.pairwise_map]
      refine List.Pairwise.imp_of_mem ?_ hsorted
      intro a b ha hb hab
      have hpa : parse_filename a.2 = some (d, l, a.1) :=
        hinvG (l, ps) hps_mem a (hperm.mem_iff.mp ha)
      have hpb : parse_filename b.2 = some (d, l, b.1) :=
        hinvG (l, ps) hps_mem b (hperm.mem_iff.mp hb)
      have hma : pageOf a.2 = a.1 := by simp [pageOf, hpa]
      have hmb : pageOf b.2 = b.1 := by simp [pageOf, hpb]
      rw [hma, hmb]
      exact hab

/-- C2: however the archive directory is enumerated, the built index lists
dates strictly descending, labels strictly ascending within each date, and
filenames by non-decreasing parsed page number within each label. -/
theorem c2_index_ordered (names : List FName) : indexOrdered (build_list_json names) :=
  emitSorted_ordered ((names.filter isSlideWebp).foldl addEntry [])
    (foldl_addEntry_inv _ [] ⟨by simp, by simp⟩)

theorem convBeforeArch_nil : convBeforeArch [] := by
  intro f j h
  cases j <;> simp [List.get?] at h

theorem convBeforeArch_single (f : FName) : convBeforeArch [Ev.conv f] := by
  intro g j h
  match j with
  | 0 => simp [List.get?] at h
  | k + 1 => simp [List.get?] at h

theorem convBeforeArch_cons2 (f : FName) (evs : List Ev) (h : convBeforeArch evs) :
    convBeforeArch (Ev.conv f :: Ev.arch f :: evs) := by
  intro g j hj
  match j with
  | 0 => simp [List.get?] at hj
  | 1 =>
    simp only [List.get?, Option.some.injEq] at hj
    have hg : g = f := by
      cases hj
      rfl
    exact ⟨0, by omega, by simp [List.get?, hg]⟩
  | k + 2 =>
    obtain ⟨i, hik, hi⟩ := h g k (by simpa [List.get?] using hj)
    exact ⟨i + 2, by omega, by simpa [List.get?] using hi⟩

theorem runFiles_convBeforeArch (cod : Codec) (clock : Nat → FName)
    (l : List FName) (i : Nat) (fs : FS) :
    convBeforeArch (runFiles cod clock l i fs).2.1 := by
  induction l generalizing i fs with
  | nil =>
    have h : (runFiles cod clock [] i fs).2.1 = [] := rfl
    rw [h]
    exact convBeforeArch_nil
  | cons f rest ih =>
    by_cases hc : (convert_to_webp cod fs f).2 = ConvResult.failed
    · have h : (runFiles cod clock (f :: rest) i fs).2.1 = [] := by
        simp [runFiles, hc]
      rw [h]
      exact convBeforeArch_nil
    · by_cases ha :
          (archive_original (convert_to_webp cod fs f).1 (clock i) f).2 = true
      · have h : (runFiles cod clock (f :: rest) i fs).2.1
            = Ev.conv f :: Ev.arch f ::
              (runFiles cod clock rest (i + 1)
                (archive_original (convert_to_webp cod fs f).1 (clock i) f).1).2.1 := by
          simp [runFiles, hc, ha]
        rw [h]
        exact convBeforeArch_cons2 f _ (ih _ _)
      · have h : (runFiles cod clock (f :: rest) i fs).2.1 = [Ev.conv f] := by
          simp [runFiles, hc, ha]
        rw [h]
        exact convBeforeArch_single f

/-- C6: in every run, the converter call for a file completes (and, on the
converting path, its output is written) strictly before the archive move of
that file: no trace ever archives a file before converting it. -/
theorem c6_convert_before_archive (cod : Codec) (clock : Nat → FName) (fs : FS) :
    convBeforeArch (process cod clock fs).2.1 := by
  have h := runFiles_convBeforeArch cod clock
    (pysorted (find_slide_pngs (fs.source.map Prod.fst))) 0 fs
  by_cases hr : (runFiles cod clock
      (pysorted (find_slide_pngs (fs.source.map Prod.fst))) 0 fs).2.2 = true
  · have he : (process cod clock fs).2.1
        = (runFiles cod clock
            (pysorted (find_slide_pngs (fs.source.map Prod.fst))) 0 fs).2.1 := by
      simp [process, hr]
    rw [he]
    exact h
  · have he : process cod clock fs
        = runFiles cod clock
            (pysorted (find_slide_pngs (fs.source.map Prod.fst))) 0 fs := by
      simp [process, hr]
    rw [he]
    exact h

theorem convert_source_eq (cod : Codec) (fs : FS) (png : FName) :
    (convert_to_webp cod fs png).1.source = fs.source := by
  by_cases h1 : dirHas fs.archive (webpNameOf png) = true
  · simp [convert_to_webp, h1]
  · cases h2 : alookup fs.source png with
    | none => simp [convert_to_webp, h1, h2]
    | some b =>
      cases h3 : cod.decode b with
      | none => simp [convert_to_webp, h1, h2, h3]
      | some img => simp [convert_to_webp, h1, h2, h3]

theorem archive_success_source (fs : FS) (ts png : FName)
    (h : (archive_original fs ts png).2 = true) :
    (archive_original fs ts png).1.source = aremove fs.source png := by
  cases h2 : alookup fs.source png with
  | none => simp [archive_original, h2] at h
  | some b =>
    by_cases h3 : dirHas fs.archive png = true <;> simp [archive_original, h2, h3]

theorem convert_listJson_indep (cod : Codec) (fs : FS) (png : FName) (j : Option Index) :
    convert_to_webp cod { fs with listJson := j } png
      = ({ (convert_to_webp cod fs png).1 with listJson := j },
         (convert_to_webp cod fs png).2) := by
  by_cases h1 : dirHas fs.archive (webpNameOf png) = true
  · simp [convert_to_webp, h1]
  · cases h2 : alookup fs.source png with
    | none => simp [convert_to_webp, h1, h2]
    | some b =>
      cases h3 : cod.decode b with
      | none => simp [convert_to_webp, h1, h2, h3]
      | some img => simp [convert_to_webp, h1, h2, h3]

theorem archive_listJson_indep (fs : FS) (ts png : FName) (j : Option Index) :
    archive_original { fs with listJson := j } ts png
      = ({ (archive_original fs ts png).1 with listJson := j },
         (archive_original fs ts png).2) := by
  cases h2 : alookup fs.source png with
  | none => simp [archive_original, h2]
  | some b =>
    by_cases h3 : dirHas fs.archive png = true <;> simp [archive_original, h2, h3]

theorem runFiles_listJson_indep (cod : Codec) (clock : Nat → FName)
    (l : List FName) (j : Option Index) :
    ∀ (i : Nat) (fs : FS),
    runFiles cod clock l i { fs with listJson := j }
      = ({ (runFiles cod clock l i fs).1 with listJson := j },
         (runFiles cod clock l i fs).2.1, (runFiles cod clock l i fs).2.2) := by
  induction l with
  | nil => intro i fs; rfl
  | cons f rest ih =>
    intro i fs
    have hc := convert_listJson_indep cod fs f j
    by_cases hfail : (convert_to_webp cod fs f).2 = ConvResult.failed
    · simp [runFiles, hc, hfail]
    · have ha := archive_listJson_indep (convert_to_webp cod fs f).1 (clock i) f j
      by_cases hok :
          (archive_original (convert_to_webp cod fs f).1 (clock i) f).2 = true
      · simp [runFiles, hc, hfail, ha, hok, ih]
      · simp [runFiles, hc, hfail, ha, hok]

theorem runFiles_success_source (cod : Codec) (clock : Nat → FName)
    (l : List FName) : ∀ (i : Nat) (fs : FS),
    (runFiles cod clock l i fs).2.2 = true →
    (runFiles cod clock l i fs).1.source
      = fs.source.filter (fun p => decide (p.1 ∉ l)) := by
  induction l with
  | nil =>
    intro i fs _
    simp [runFiles]
  | cons f rest ih =>
    intro i fs h
    by_cases hfail : (convert_to_webp cod fs f).2 = ConvResult.failed
    · rw [show (runFiles cod clock (f :: rest) i fs).2.2
          = false by simp [runFiles, hfail]] at h
      exact absurd h (by simp)
    · by_cases hok :
          (archive_original (convert_to_webp cod fs f).1 (clock i) f).2 = true
      · have hrest : (runFiles cod clock rest (i + 1)
            (archive_original (convert_to_webp cod fs f).1 (clock i) f).1).2.2
              = true := by
          have he : (runFiles cod clock (f :: rest) i fs).2.2
              = (runFiles cod clock rest (i + 1)
                  (archive_original (convert_to_webp cod fs f).1 (clock i) f).1).2.2 := by
            simp [runFiles, hfail, hok]
          rw [he] at h
          exact h
        have hsrc2 : (archive_original (convert_to_webp cod fs f).1 (clock i) f).1.source
            = aremove fs.source f := by
          rw [archive_success_source _ _ _ hok, convert_source_eq]
        have hfinal : (runFiles cod clock (f :: rest) i fs).1.source
            = (runFiles cod clock rest (i + 1)
                (archive_original (convert_to_webp cod fs f).1 (clock i) f).1).1.source := by
          simp [runFiles, hfail, hok]
        rw [hfinal, ih _ _ hrest, hsrc2, aremove, List.filter_filter]
        apply List.filter_congr
        intro p _
        by_cases hf : p.1 = f <;> by_cases hr : p.1 ∈ rest <;> simp [hf, hr]
      · rw [show (runFiles cod clock (f :: rest) i fs).2.2
            = false by simp [runFiles, hfail, hok]] at h
        exact absurd h (by simp)

theorem runFiles_nil_eq (cod : Codec) (clock : Nat → FName) (i : Nat) (fs : FS) :
    runFiles cod clock [] i fs = (fs, [], true) := rfl

theorem process_eq_success (cod : Codec) (clock : Nat → FName) (fs : FS)
    (hr : (runFiles cod clock
        (pysorted (find_slide_pngs (fs.source.map Prod.fst))) 0 fs).2.2 = true) :
    process cod clock fs
      = ({ (runFiles cod clock
              (pysorted (find_slide_pngs (fs.source.map Prod.fst))) 0 fs).1 with
            listJson := some (build_list_json
              ((runFiles cod clock
                (pysorted (find_slide_pngs (fs.source.map Prod.fst))) 0 fs).1.archive.map
                  Prod.fst)) },
         (runFiles cod clock
            (pysorted (find_slide_pngs (fs.source.map Prod.fst))) 0 fs).2.1, true) := by
  simp [process, hr]

theorem process_eq_fail (cod : Codec) (clock : Nat → FName) (fs : FS)
    (hr : ¬ (runFiles cod clock
        (pysorted (find_slide_pngs (fs.source.map Prod.fst))) 0 fs).2.2 = true) :
    process cod clock fs
      = runFiles cod clock
          (pysorted (find_slide_pngs (fs.source.map Prod.fst))) 0 fs := by
  simp [process, hr]

theorem mem_pysorted (l : List FName) (x : FName) : x ∈ pysorted l ↔ x ∈ l :=
  (List.perm_insertionSort _ _).mem_iff

/-- C8: whenever a run completes, `list.json` holds exactly the index
rebuilt from the final archive contents, and the result does not depend on
whatever `list.json` held before the run (full overwrite, never a merge). -/
theorem c8_index_rebuilt (cod : Codec) (clock : Nat → FName) (fs : FS)
    (j : Option Index) (h : (process cod clock fs).2.2 = true) :
    (process cod clock fs).1.listJson
      = some (build_list_json ((process cod clock fs).1.archive.map Prod.fst)) ∧
    (process cod clock { fs with listJson := j }).1.listJson
      = (process cod clock fs).1.listJson := by
  by_cases hr : (runFiles cod clock
      (pysorted (find_slide_pngs (fs.source.map Prod.fst))) 0 fs).2.2 = true
  · constructor
    · rw [process_eq_success cod clock fs hr]
    · have hind := runFiles_listJson_indep cod clock
        (pysorted (find_slide_pngs (fs.source.map Prod.fst))) j 0 fs
      have hgoal : process cod clock { fs with listJson := j }
          = ({ (runFiles cod clock
                  (pysorted (find_slide_pngs (fs.source.map Prod.fst))) 0 fs).1 with
                listJson := some (build_list_json
                  ((runFiles cod clock
                    (pysorted (find_slide_pngs (fs.source.map Prod.fst))) 0
                      fs).1.archive.map Prod.fst)) },
             (runFiles cod clock
                (pysorted (find_slide_pngs (fs.source.map Prod.fst))) 0 fs).2.1,
             true) := by
        simp [process, hind, hr]
      rw [hgoal, process_eq_success cod clock fs hr]
  · rw [process_eq_fail cod clock fs hr] at h
    exact absurd h hr

/-- C9: a second run over the state a successful run produced changes
nothing: no conversions, no archive moves, the same index. -/
theorem c9_idempotent (cod : Codec) (clock clock2 : Nat → FName) (fs fs1 : FS)
    (evs : List Ev) (h : process cod clock fs = (fs1, evs, true)) :
    process cod clock2 fs1 = (fs1, [], true) := by
  by_cases hr : (runFiles cod clock
      (pysorted (find_slide_pngs (fs.source.map Prod.fst))) 0 fs).2.2 = true
  · rw [process_eq_success cod clock fs hr] at h
    have hfs1 : fs1
        = { (runFiles cod clock
              (pysorted (find_slide_pngs (fs.source.map Prod.fst))) 0 fs).1 with
            listJson := some (build_list_json
              ((runFiles cod clock
                (pysorted (find_slide_pngs (fs.source.map Prod.fst))) 0
                  fs).1.archive.map Prod.fst)) } :=
      (congrArg Prod.fst h).symm
    have hsrc1 : fs1.source = fs.source.filter
        (fun p => decide (p.1 ∉ pysorted (find_slide_pngs (fs.source.map Prod.fst)))) := by
      rw [hfs1]
      exact runFiles_success_source cod clock _ 0 fs hr
    have hlist1 : fs1.listJson = some (build_list_json (fs1.archive.map Prod.fst)) := by
      rw [hfs1]
    have hempty : find_slide_pngs (fs1.source.map Prod.fst) = [] := by
      rw [List.eq_nil_iff_forall_not_mem]
      intro x hx
      rw [mem_find_slide_pngs] at hx
      obtain ⟨hx1, hx2, hx3⟩ := hx
      rw [hsrc1] at hx1
      rcases List.mem_map.mp hx1 with ⟨p, hp, rfl⟩
      have hp2 := List.mem_filter.mp hp
      have hnotin : p.1 ∉ pysorted (find_slide_pngs (fs.source.map Prod.fst)) := by
        simpa using hp2.2
      apply hnotin
      rw [mem_pysorted, mem_find_slide_pngs]
      exact ⟨List.mem_map.mpr ⟨p, hp2.1, rfl⟩, hx2, hx3⟩
    have hslides1 : pysorted (find_slide_pngs (fs1.source.map Prod.fst)) = [] := by
      rw [hempty]
      rfl
    have hrun1 : runFiles cod clock2
        (pysorted (find_slide_pngs (fs1.source.map Prod.fst))) 0 fs1
          = (fs1, [], true) := by
      rw [hslides1]
      rfl
    have hr1 : (runFiles cod clock2
        (pysorted (find_slide_pngs (fs1.source.map Prod.fst))) 0 fs1).2.2 = true := by
      rw [hrun1]
    rw [process_eq_success cod clock2 fs1 hr1, hrun1]
    have heq : ({ fs1 with
        listJson := some (build_list_json (fs1.archive.map Prod.fst)) } : FS) = fs1 := by
      rw [← hlist1]
    rw [heq]
  · rw [process_eq_fail cod clock fs hr] at h
    have h2 : (runFiles cod clock
        (pysorted (find_slide_pngs (fs.source.map Prod.fst))) 0 fs).2.2 = true := by
      rw [h]
    exact absurd h2 hr

/-- C7: the decode error on the first file aborts the whole run: the state
is returned unchanged with the failure flag, the well-formed second file is
left unconverted, unarchived, and the index is never rebuilt — the batch
does not continue past the malformed image. -/
theorem c7_decode_error_aborts :
    process codBad clock0 fs7 = (fs7, [], false) ∧
    alookup fs7.source png2 = some 5 ∧
    dirHas (process codBad clock0 fs7).1.archive (webpNameOf png2) = false ∧
    (process codBad clock0 fs7).1.listJson = none := by
  refine ⟨by decide, by decide, ?_, ?_⟩ <;> decide

theorem c8_index_rebuilt_witness :
    (process codOk clock0 ⟨[], [], none⟩).1.listJson
      = some (build_list_json
          ((process codOk clock0 ⟨[], [], none⟩).1.archive.map Prod.fst)) ∧
    (process codOk clock0 { (⟨[], [], none⟩ : FS) with listJson := some [] }).1.listJson
      = (process codOk clock0 ⟨[], [], none⟩).1.listJson :=
  c8_index_rebuilt codOk clock0 ⟨[], [], none⟩ (some []) (by decide)

theorem c9_idempotent_witness :
    process codOk clock0 fs9Done = (fs9Done, [], true) :=
  c9_idempotent codOk clock0 clock0 fs9 fs9Done [Ev.conv png1, Ev.arch png1] (by decide)
